import Mathlib

/-!
Verification of the `risc0` serial backend of curve25519-dalek.

This file gives a shallow embedding, over `Nat`, of the three source files
`backend/serial/risc0/field.rs`, `backend/serial/risc0/scalar.rs` and
`backend/serial/risc0/constants.rs`, and proves the specification claims
about them.  A 256-bit `U256` value is represented by the natural number it
denotes (always reasoned about below `2^256` where relevant); 32-bit words
and carry chains are modelled limb by limb exactly as in the Rust source.

The two accelerator primitives `risc0::modmul_u256` and
`risc0::modmul_u256_denormalized` live in the `crypto-bigint` dependency,
outside this repository; they are modelled from the specification (a
cooperative host returns the exact modular product, which is what the
specification and the source comments assume).
-/

namespace Risc0

/-- Prime `2^255 - 19` defining the field, transcribed from the constant `P`
in field.rs. -/
def P : ℕ := 0x7FFFFFFFFFFFFFFFFFFFFFFFFFFFFFFFFFFFFFFFFFFFFFFFFFFFFFFFFFFFFFED

/-- Zero minus the modulus under wrapping 256-bit arithmetic, transcribed
from `MODULUS_CORRECTION = U256::ZERO.wrapping_sub(&P)` in field.rs. -/
def MODULUS_CORRECTION : ℕ := (2 ^ 256 - P) % 2 ^ 256

/-- Modelled from the spec: `risc0::modmul_u256(a, b, m)` from the
crypto-bigint dependency is a hardware-accelerated modular multiply that,
on a cooperative host, returns the canonical product `a * b mod m`
(the spec: modular multiplication reduced mod the modulus). -/
def modmul_u256 (a b m : ℕ) : ℕ := a * b % m

/-- Modelled from the spec: `risc0::modmul_u256_denormalized(a, b, m)` is
the same accelerator circuit without the in-guest normalization check; a
cooperative host returns the same canonical product `a * b mod m`. -/
def modmul_u256_denormalized (a b m : ℕ) : ℕ := a * b % m

/-- Word `i` (bits `32*i .. 32*i+31`) of a 256-bit value, as produced by
`U256::as_limbs` / `U256::as_words` in the Rust source. -/
def limb (x i : ℕ) : ℕ := x / 2 ^ (32 * i) % 2 ^ 32

/-- Carrying 32-bit addition `Limb::adc`: low word and carry-out of
`x + y + c`. -/
def adc (x y c : ℕ) : ℕ × ℕ := ((x + y + c) % 2 ^ 32, (x + y + c) / 2 ^ 32)

/-- Recomposition of eight 32-bit words into a 256-bit value, as
`U256::from([a0, ..., a7])` / `U256::from_words`. -/
def fromLimbs8 (a0 a1 a2 a3 a4 a5 a6 a7 : ℕ) : ℕ :=
  a0 + a1 * 2 ^ 32 + a2 * 2 ^ 64 + a3 * 2 ^ 96 + a4 * 2 ^ 128 +
    a5 * 2 ^ 160 + a6 * 2 ^ 192 + a7 * 2 ^ 224

/-- Field element of `Z/(2^255-19)Z` as held by the backend: a bare 256-bit
value (`FieldElementR0(pub(crate) U256)` in field.rs). -/
structure FieldElementR0 where
  val : ℕ
deriving DecidableEq

/-- Carry-propagating limb addition chain of `AddAssign for FieldElementR0`
(field.rs): limbwise addition of `self`, `rhs` and `MODULUS_CORRECTION`,
returning the recomposed 256-bit value together with the final carry
`carry7`. -/
def addChain (s r : ℕ) : ℕ × ℕ :=
  let m := MODULUS_CORRECTION
  let p0 := adc (limb s 0) (limb r 0) (limb m 0)
  let p1 := adc (limb s 1) (limb r 1) (p0.2 + limb m 1)
  let p2 := adc (limb s 2) (limb r 2) (p1.2 + limb m 2)
  let p3 := adc (limb s 3) (limb r 3) (p2.2 + limb m 3)
  let p4 := adc (limb s 4) (limb r 4) (p3.2 + limb m 4)
  let p5 := adc (limb s 5) (limb r 5) (p4.2 + limb m 5)
  let p6 := adc (limb s 6) (limb r 6) (p5.2 + limb m 6)
  let p7 := adc (limb s 7) (limb r 7) (p6.2 + limb m 7)
  (fromLimbs8 p0.1 p1.1 p2.1 p3.1 p4.1 p5.1 p6.1 p7.1, p7.2)

/-- Field addition, `AddAssign for FieldElementR0` followed by the
mask-selected correction removal (field.rs).  The Rust assertion
`assert!(carry7.0 <= 1)` is modelled by returning `none` when it fires. -/
def FieldElementR0.add (a b : FieldElementR0) : Option FieldElementR0 :=
  let t := addChain a.val b.val
  if t.2 ≤ 1 then
    let mask := 1 - t.2
    let c0 := limb MODULUS_CORRECTION 0 * mask
    let c7 := limb MODULUS_CORRECTION 7 * mask
    let correction := fromLimbs8 c0 0 0 0 0 0 0 c7
    some ⟨(t.1 + (2 ^ 256 - correction)) % 2 ^ 256⟩
  else
    none

/-- Constant `FieldElementR0::ZERO`. -/
def FieldElementR0.ZERO : FieldElementR0 := ⟨0⟩

/-- Constant `FieldElementR0::ONE`. -/
def FieldElementR0.ONE : FieldElementR0 := ⟨1⟩

/-- Constant `FieldElementR0::TWO`. -/
def FieldElementR0.TWO : FieldElementR0 := ⟨2⟩

/-- Constant `FieldElementR0::MINUS_ONE`, transcribed from its hex literal
in field.rs. -/
def FieldElementR0.MINUS_ONE : FieldElementR0 :=
  ⟨0x7FFFFFFFFFFFFFFFFFFFFFFFFFFFFFFFFFFFFFFFFFFFFFFFFFFFFFFFFFFFFFEC⟩

/-- Field multiplication, `MulAssign for FieldElementR0` (field.rs): a
single accelerator modular multiply. -/
def FieldElementR0.mul (a b : FieldElementR0) : FieldElementR0 :=
  ⟨modmul_u256_denormalized a.val b.val P⟩

/-- Field negation, `FieldElementR0::negate` (field.rs): an accelerator
modular multiply of the value by `MINUS_ONE`. -/
def FieldElementR0.negate (a : FieldElementR0) : FieldElementR0 :=
  ⟨modmul_u256_denormalized a.val FieldElementR0.MINUS_ONE.val P⟩

/-- Field squaring, `FieldElementR0::square` (field.rs). -/
def FieldElementR0.square (a : FieldElementR0) : FieldElementR0 :=
  ⟨modmul_u256_denormalized a.val a.val P⟩

/-- Doubled square `2 * self^2`, `FieldElementR0::square2` (field.rs). -/
def FieldElementR0.square2 (a : FieldElementR0) : FieldElementR0 :=
  ⟨modmul_u256_denormalized FieldElementR0.TWO.val a.square.val P⟩

/-- Repeated squaring `FieldElementR0::pow2k` (field.rs): one initial
squaring followed by the loop `for _ in 1..k`, i.e. `k - 1` further
squarings. -/
def FieldElementR0.pow2k (a : FieldElementR0) (k : ℕ) : FieldElementR0 :=
  FieldElementR0.square^[k - 1] a.square

/-- Little-endian decoding of the first `n` bytes of a byte sequence, as
`U256::from_le_bytes` does for `n = 32`. -/
def leBytes (n : ℕ) (b : ℕ → ℕ) : ℕ := ∑ i ∈ Finset.range n, b i * 2 ^ (8 * i)

/-- Little-endian 32-byte encoding of a 256-bit value, as
`U256::to_le_bytes`. -/
def toLeBytes32 (x : ℕ) : List ℕ := (List.range 32).map fun i => x / 2 ^ (8 * i) % 256

/-- Deserialization `FieldElementR0::from_bytes` (field.rs): decode 32
little-endian bytes, mask the top word with `0x7FFFFFFF`, then reduce to
`[0, p)` by an accelerator multiplication by one. -/
def FieldElementR0.from_bytes (data : ℕ → ℕ) : FieldElementR0 :=
  let val := leBytes 32 data
  let masked := val % 2 ^ 224 + (limb val 7 &&& 0x7FFFFFFF) * 2 ^ 224
  ⟨modmul_u256_denormalized masked FieldElementR0.ONE.val P⟩

/-- Serialization `FieldElementR0::as_bytes` (field.rs).  The Rust
assertion `assert!(self.0.ct_lt(&P).unwrap_u8() == 1)` is modelled by
returning `none` when it fires. -/
def FieldElementR0.as_bytes (a : FieldElementR0) : Option (List ℕ) :=
  if a.val < P then some (toLeBytes32 a.val) else none

/-- Scalar of `Z/LZ` as held by the backend: a bare 256-bit value
(`ScalarR0(pub U256)` in scalar.rs). -/
structure ScalarR0 where
  val : ℕ
deriving DecidableEq

/-- Group order constant `L = 2^252 + 27742317777372353535851937790883648493`,
transcribed from its hex literal in constants.rs. -/
def L : ScalarR0 :=
  ⟨0x1000000000000000000000000000000014DEF9DEA2F79CD65812631A5CF5D3ED⟩

/-- Constant `R = 2^261 mod L`, transcribed from its hex literal in
constants.rs. -/
def R : ScalarR0 :=
  ⟨0x0FFFFFFFFFFFFFFFFFFFFFFFFFFFFFD656EB3C98B3BDF026334C2E60714DF9ED⟩

/-- Multiplicative inverse of the Montgomery modulus `R = 2^261` mod `L`,
transcribed from the constant `R_INVERSE` in scalar.rs. -/
def R_INVERSE : ℕ :=
  0x064EDB637937F48C1B0A73AA1C7FD1B5FD934BE6D1D6D67AC7421B8F04C727E2

/-- Constant `2^256 mod L`, transcribed from `TWO_POW_TWO_FIFTY_SIX` in
scalar.rs. -/
def TWO_POW_TWO_FIFTY_SIX : ℕ :=
  0x0FFFFFFFFFFFFFFFFFFFFFFFFFFFFFFEC6EF5BF4737DCF70D6EC31748D98951D

/-- Constant `ScalarR0::MINUS_ONE`, transcribed from its hex literal in
scalar.rs. -/
def ScalarR0.MINUS_ONE : ScalarR0 :=
  ⟨0x1000000000000000000000000000000014DEF9DEA2F79CD65812631A5CF5D3EC⟩

/-- Modelled from the spec: `U256::add_mod` of the crypto-bigint
dependency computes the modular sum by a conditional subtraction of the
modulus, which is the sum reduced mod `m` whenever `a + b` is below `2m`
(the assumption stated in the scalar.rs comment at its call site). -/
def add_mod (a b m : ℕ) : ℕ := if a + b < m then a + b else a + b - m

/-- Deserialization `ScalarR0::from_bytes` (scalar.rs): a plain
little-endian decode with no reduction. -/
def ScalarR0.from_bytes (bytes : ℕ → ℕ) : ScalarR0 := ⟨leBytes 32 bytes⟩

/-- Wide deserialization `ScalarR0::from_bytes_wide` (scalar.rs): split
into low and high 256-bit halves, shift the high half by `2^256 mod L`
with an accelerator multiply, reduce the low half mod `L`, and add the two
with `add_mod`. -/
def ScalarR0.from_bytes_wide (bytes : ℕ → ℕ) : ScalarR0 :=
  let lo := leBytes 32 bytes
  let hi := leBytes 32 fun i => bytes (32 + i)
  let hi_shifted_left_256 := modmul_u256 hi TWO_POW_TWO_FIFTY_SIX L.val
  let lo2 := modmul_u256 lo 1 L.val
  ⟨add_mod hi_shifted_left_256 lo2 L.val⟩

/-- Serialization `ScalarR0::as_bytes` (scalar.rs): reduce mod `L` by an
accelerator multiplication by one, then encode little-endian. -/
def ScalarR0.as_bytes (a : ScalarR0) : List ℕ :=
  toLeBytes32 (modmul_u256 a.val 1 L.val)

/-- Scalar addition `ScalarR0::add` (scalar.rs). -/
def ScalarR0.add (a b : ScalarR0) : ScalarR0 := ⟨add_mod a.val b.val L.val⟩

/-- Scalar negation `ScalarR0::negate` (scalar.rs). -/
def ScalarR0.negate (a : ScalarR0) : ScalarR0 :=
  ⟨modmul_u256 a.val ScalarR0.MINUS_ONE.val L.val⟩

/-- Reduction `ScalarR0::reduce` (scalar.rs): an accelerator
multiplication by one mod `L`. -/
def ScalarR0.reduce (a : ScalarR0) : ScalarR0 := ⟨modmul_u256 a.val 1 L.val⟩

/-- Scalar multiplication `ScalarR0::mul` (scalar.rs). -/
def ScalarR0.mul (a b : ScalarR0) : ScalarR0 := ⟨modmul_u256 a.val b.val L.val⟩

/-- Scalar squaring `ScalarR0::square` (scalar.rs). -/
def ScalarR0.square (a : ScalarR0) : ScalarR0 :=
  ⟨modmul_u256 a.val a.val L.val⟩

/-- Montgomery-domain multiplication `ScalarR0::montgomery_mul`
(scalar.rs): a denormalized accelerator product followed by a
multiplication by `R_INVERSE`. -/
def ScalarR0.montgomery_mul (a b : ScalarR0) : ScalarR0 :=
  let ab := modmul_u256_denormalized a.val b.val L.val
  ⟨modmul_u256 ab R_INVERSE L.val⟩

/-- Montgomery-domain squaring `ScalarR0::montgomery_square` (scalar.rs). -/
def ScalarR0.montgomery_square (a : ScalarR0) : ScalarR0 :=
  let squared := modmul_u256_denormalized a.val a.val L.val
  ⟨modmul_u256 squared R_INVERSE L.val⟩

/-- Conversion into Montgomery form, `ScalarR0::as_montgomery`
(scalar.rs): multiplication by the constant `R` mod `L`. -/
def ScalarR0.as_montgomery (a : ScalarR0) : ScalarR0 :=
  ⟨modmul_u256 a.val R.val L.val⟩

/-- Conversion out of Montgomery form, `ScalarR0::from_montgomery`
(scalar.rs): multiplication by the constant `R_INVERSE` mod `L`. -/
def ScalarR0.from_montgomery (a : ScalarR0) : ScalarR0 :=
  ⟨modmul_u256 a.val R_INVERSE L.val⟩

/-- Edwards point in extended homogeneous coordinates, as the
`EdwardsPoint` struct populated by constants.rs. -/
structure EdwardsPoint where
  X : FieldElementR0
  Y : FieldElementR0
  Z : FieldElementR0
  T : FieldElementR0
deriving DecidableEq

/-- Ed25519 base point `ED25519_BASEPOINT_POINT`, transcribed from its hex
literals in constants.rs. -/
def ED25519_BASEPOINT_POINT : EdwardsPoint :=
  { X := ⟨0x216936D3CD6E53FEC0A4E231FDD6DC5C692CC7609525A7B2C9562D608F25D51A⟩
    Y := ⟨0x6666666666666666666666666666666666666666666666666666666666666658⟩
    Z := FieldElementR0.ONE
    T := ⟨0x67875F0FD78B766566EA4E8E64ABE37D20F09F80775152F56DDE8AB3A5B7DDA3⟩ }

/-- Eight-torsion subgroup `EIGHT_TORSION_INNER_DOC_HIDDEN` (also exposed
as `EIGHT_TORSION`), transcribed from its hex literals in constants.rs. -/
def EIGHT_TORSION : List EdwardsPoint :=
  [ { X := FieldElementR0.ZERO
      Y := FieldElementR0.ONE
      Z := FieldElementR0.ONE
      T := FieldElementR0.ZERO }
  , { X := ⟨0x1FD5B9A006394A28E933993238DE4ABB5C193C7013E5E238DEA14646C545D14A⟩
      Y := ⟨0x7A03AC9277FDC74EC6CC392CFA53202A0F67100D760B3CBA4FD84D3D706A17C7⟩
      Z := FieldElementR0.ONE
      T := ⟨0x6CE244C360A26BEB303276D192F8AF0ABA993D74CDFA85962D0D253EDE7E8781⟩ }
  , { X := ⟨0x547CDB7FB03E20F4D4B2FF66C2042858D0BCE7F952D01B873B11E4D8B5F15F3D⟩
      Y := FieldElementR0.ZERO
      Z := FieldElementR0.ONE
      T := FieldElementR0.ZERO }
  , { X := ⟨0x1FD5B9A006394A28E933993238DE4ABB5C193C7013E5E238DEA14646C545D14A⟩
      Y := ⟨0x05FC536D880238B13933C6D305ACDFD5F098EFF289F4C345B027B2C28F95E826⟩
      Z := FieldElementR0.ONE
      T := ⟨0x131DBB3C9F5D9414CFCD892E6D0750F54566C28B32057A69D2F2DAC12181786C⟩ }
  , { X := FieldElementR0.ZERO
      Y := ⟨0x7FFFFFFFFFFFFFFFFFFFFFFFFFFFFFFFFFFFFFFFFFFFFFFFFFFFFFFFFFFFFFEC⟩
      Z := FieldElementR0.ONE
      T := FieldElementR0.ZERO }
  , { X := ⟨0x602A465FF9C6B5D716CC66CDC721B544A3E6C38FEC1A1DC7215EB9B93ABA2EA3⟩
      Y := ⟨0x05FC536D880238B13933C6D305ACDFD5F098EFF289F4C345B027B2C28F95E826⟩
      Z := FieldElementR0.ONE
      T := ⟨0x6CE244C360A26BEB303276D192F8AF0ABA993D74CDFA85962D0D253EDE7E8781⟩ }
  , { X := ⟨0x2B8324804FC1DF0B2B4D00993DFBD7A72F431806AD2FE478C4EE1B274A0EA0B0⟩
      Y := FieldElementR0.ZERO
      Z := FieldElementR0.ONE
      T := FieldElementR0.ZERO }
  , { X := ⟨0x602A465FF9C6B5D716CC66CDC721B544A3E6C38FEC1A1DC7215EB9B93ABA2EA3⟩
      Y := ⟨0x7A03AC9277FDC74EC6CC392CFA53202A0F67100D760B3CBA4FD84D3D706A17C7⟩
      Z := FieldElementR0.ONE
      T := ⟨0x131DBB3C9F5D9414CFCD892E6D0750F54566C28B32057A69D2F2DAC12181786C⟩ }
  ]

/-- Extended-coordinates invariant of an `EdwardsPoint`: the product of X
and Y agrees with the product of Z and T under the field multiplication of
the backend. -/
def extendedInvariant (Q : EdwardsPoint) : Prop :=
  FieldElementR0.mul Q.X Q.Y = FieldElementR0.mul Q.Z Q.T

instance (Q : EdwardsPoint) : Decidable (extendedInvariant Q) := by
  unfold extendedInvariant
  infer_instance

/-!
Helper lemmas about the limb-level addition chain.
-/

theorem adc_decomp (x y c : ℕ) :
    (adc x y c).1 + 2 ^ 32 * (adc x y c).2 = x + y + c := by
  simp only [adc]
  omega

theorem adc_fst_lt (x y c : ℕ) : (adc x y c).1 < 2 ^ 32 := by
  simp only [adc]
  omega

theorem limbs_recompose (s : ℕ) (hs : s < 2 ^ 256) :
    fromLimbs8 (limb s 0) (limb s 1) (limb s 2) (limb s 3) (limb s 4)
      (limb s 5) (limb s 6) (limb s 7) = s := by
  simp only [fromLimbs8, limb]
  norm_num
  omega

theorem addChain_spec (s r : ℕ) (hs : s < 2 ^ 256) (hr : r < 2 ^ 256) :
    addChain s r =
      ((s + r + MODULUS_CORRECTION) % 2 ^ 256,
        (s + r + MODULUS_CORRECTION) / 2 ^ 256) := by
  have hm : MODULUS_CORRECTION < 2 ^ 256 := by norm_num [P, MODULUS_CORRECTION]
  have hsrec := limbs_recompose s hs
  have hrrec := limbs_recompose r hr
  have hmrec := limbs_recompose MODULUS_CORRECTION hm
  unfold addChain
  set q0 := adc (limb s 0) (limb r 0) (limb MODULUS_CORRECTION 0) with hq0
  set q1 := adc (limb s 1) (limb r 1) (q0.2 + limb MODULUS_CORRECTION 1) with hq1
  set q2 := adc (limb s 2) (limb r 2) (q1.2 + limb MODULUS_CORRECTION 2) with hq2
  set q3 := adc (limb s 3) (limb r 3) (q2.2 + limb MODULUS_CORRECTION 3) with hq3
  set q4 := adc (limb s 4) (limb r 4) (q3.2 + limb MODULUS_CORRECTION 4) with hq4
  set q5 := adc (limb s 5) (limb r 5) (q4.2 + limb MODULUS_CORRECTION 5) with hq5
  set q6 := adc (limb s 6) (limb r 6) (q5.2 + limb MODULUS_CORRECTION 6) with hq6
  set q7 := adc (limb s 7) (limb r 7) (q6.2 + limb MODULUS_CORRECTION 7) with hq7
  have d0 := adc_decomp (limb s 0) (limb r 0) (limb MODULUS_CORRECTION 0)
  have d1 := adc_decomp (limb s 1) (limb r 1) (q0.2 + limb MODULUS_CORRECTION 1)
  have d2 := adc_decomp (limb s 2) (limb r 2) (q1.2 + limb MODULUS_CORRECTION 2)
  have d3 := adc_decomp (limb s 3) (limb r 3) (q2.2 + limb MODULUS_CORRECTION 3)
  have d4 := adc_decomp (limb s 4) (limb r 4) (q3.2 + limb MODULUS_CORRECTION 4)
  have d5 := adc_decomp (limb s 5) (limb r 5) (q4.2 + limb MODULUS_CORRECTION 5)
  have d6 := adc_decomp (limb s 6) (limb r 6) (q5.2 + limb MODULUS_CORRECTION 6)
  have d7 := adc_decomp (limb s 7) (limb r 7) (q6.2 + limb MODULUS_CORRECTION 7)
  rw [← hq0] at d0
  rw [← hq1] at d1
  rw [← hq2] at d2
  rw [← hq3] at d3
  rw [← hq4] at d4
  rw [← hq5] at d5
  rw [← hq6] at d6
  rw [← hq7] at d7
  have b0 : q0.1 < 2 ^ 32 := by rw [hq0]; exact adc_fst_lt _ _ _
  have b1 : q1.1 < 2 ^ 32 := by rw [hq1]; exact adc_fst_lt _ _ _
  have b2 : q2.1 < 2 ^ 32 := by rw [hq2]; exact adc_fst_lt _ _ _
  have b3 : q3.1 < 2 ^ 32 := by rw [hq3]; exact adc_fst_lt _ _ _
  have b4 : q4.1 < 2 ^ 32 := by rw [hq4]; exact adc_fst_lt _ _ _
  have b5 : q5.1 < 2 ^ 32 := by rw [hq5]; exact adc_fst_lt _ _ _
  have b6 : q6.1 < 2 ^ 32 := by rw [hq6]; exact adc_fst_lt _ _ _
  have b7 : q7.1 < 2 ^ 32 := by rw [hq7]; exact adc_fst_lt _ _ _
  have key : fromLimbs8 q0.1 q1.1 q2.1 q3.1 q4.1 q5.1 q6.1 q7.1 + 2 ^ 256 * q7.2 =
      s + r + MODULUS_CORRECTION := by
    simp only [fromLimbs8] at hsrec hrrec hmrec ⊢
    omega
  have bound : fromLimbs8 q0.1 q1.1 q2.1 q3.1 q4.1 q5.1 q6.1 q7.1 < 2 ^ 256 := by
    simp only [fromLimbs8]
    omega
  refine Prod.ext ?_ ?_
  · show fromLimbs8 q0.1 q1.1 q2.1 q3.1 q4.1 q5.1 q6.1 q7.1 = _
    omega
  · show q7.2 = _
    omega

/-- Evaluation of field addition on canonical inputs: the carry assertion
passes and the result is the canonical sum mod p. -/
theorem add_eval (a b : FieldElementR0) (ha : a.val < P) (hb : b.val < P) :
    FieldElementR0.add a b = some ⟨(a.val + b.val) % P⟩ := by
  have hP : P < 2 ^ 256 := by norm_num [P]
  have hs : a.val < 2 ^ 256 := lt_trans ha hP
  have hr : b.val < 2 ^ 256 := lt_trans hb hP
  unfold FieldElementR0.add
  rw [addChain_spec a.val b.val hs hr]
  dsimp only
  norm_num [P] at ha hb
  rcases Nat.lt_or_ge (a.val + b.val) P with hc | hc
  · have h0 : (a.val + b.val + MODULUS_CORRECTION) / 2 ^ 256 = 0 := by
      norm_num [P, MODULUS_CORRECTION] at hc ⊢
      omega
    rw [h0]
    norm_num [limb, fromLimbs8, P, MODULUS_CORRECTION]
    norm_num [P, MODULUS_CORRECTION] at hc
    omega
  · have h1 : (a.val + b.val + MODULUS_CORRECTION) / 2 ^ 256 = 1 := by
      norm_num [P, MODULUS_CORRECTION] at hc ⊢
      omega
    rw [h1]
    norm_num [limb, fromLimbs8, P, MODULUS_CORRECTION]
    norm_num [P] at hc
    omega

/-!
Helper lemmas about little-endian byte decoding.
-/

theorem leBytes_lt (n : ℕ) (b : ℕ → ℕ) (h : ∀ i < n, b i < 256) :
    leBytes n b < 2 ^ (8 * n) := by
  induction n with
  | zero => simp [leBytes]
  | succ m ih =>
    have hsum : leBytes m b < 2 ^ (8 * m) := ih fun i hi => h i (by omega)
    have hbm : b m < 256 := h m (by omega)
    have hpow : (2 : ℕ) ^ (8 * (m + 1)) = 2 ^ (8 * m) * 256 := by
      rw [show 8 * (m + 1) = 8 * m + 8 from by ring, pow_add]
      norm_num
    rw [leBytes, Finset.sum_range_succ, ← leBytes, hpow]
    have step1 : leBytes m b + b m * 2 ^ (8 * m) <
        2 ^ (8 * m) + b m * 2 ^ (8 * m) := by
      exact Nat.add_lt_add_right hsum _
    have step2 : 2 ^ (8 * m) + b m * 2 ^ (8 * m) ≤
        2 ^ (8 * m) + 255 * 2 ^ (8 * m) := by
      exact Nat.add_le_add_left (Nat.mul_le_mul_right _ (by omega)) _
    calc leBytes m b + b m * 2 ^ (8 * m) <
        2 ^ (8 * m) + b m * 2 ^ (8 * m) := step1
      _ ≤ 2 ^ (8 * m) + 255 * 2 ^ (8 * m) := step2
      _ = 2 ^ (8 * m) * 256 := by ring

theorem leBytes_split (m n : ℕ) (b : ℕ → ℕ) :
    leBytes (m + n) b = leBytes m b + 2 ^ (8 * m) * leBytes n fun i => b (m + i) := by
  unfold leBytes
  rw [Finset.sum_range_add, Finset.mul_sum]
  congr 1
  refine Finset.sum_congr rfl fun i _ => ?_
  rw [← mul_assoc, mul_comm (2 ^ (8 * m)) (b (m + i)), mul_assoc, ← pow_add]
  rw [show 8 * m + 8 * i = 8 * (m + i) from by ring]

theorem leBytes_const255 (n : ℕ) : leBytes n (fun _ => 255) = 2 ^ (8 * n) - 1 := by
  induction n with
  | zero => simp [leBytes]
  | succ m ih =>
    have hpow : (2 : ℕ) ^ (8 * (m + 1)) = 2 ^ (8 * m) * 256 := by
      rw [show 8 * (m + 1) = 8 * m + 8 from by ring, pow_add]
      norm_num
    have hpos : 1 ≤ (2 : ℕ) ^ (8 * m) := Nat.one_le_two_pow
    rw [leBytes, Finset.sum_range_succ, ← leBytes, ih, hpow]
    omega

theorem add_mod_eval (a b m : ℕ) (ha : a < m) (hb : b < m) :
    add_mod a b m = (a + b) % m := by
  unfold add_mod
  by_cases h : a + b < m
  · rw [if_pos h, Nat.mod_eq_of_lt h]
  · rw [if_neg h]
    have h2 : a + b - m < m := by omega
    have h3 : (a + b) % m = (a + b - m) % m := by
      rw [← Nat.mod_eq_sub_mod (by omega)]
    rw [h3, Nat.mod_eq_of_lt h2]

theorem scalar_eq_of_val {x y : ScalarR0} (h : x.val = y.val) : x = y := by
  cases x
  cases y
  simpa using h

theorem field_eq_of_val {x y : FieldElementR0} (h : x.val = y.val) : x = y := by
  cases x
  cases y
  simpa using h

/-!
Claim theorems.
-/

/-- C1: for canonical field elements a and b (values below p), the limb
addition with pre-added modulus correction and mask-selected correction
removal returns exactly the canonical sum (a + b) mod p, the result is
itself canonical, and the internal overflow assertion does not fire (the
result is `some`). -/
theorem c1_field_add_correct (a b : FieldElementR0)
    (ha : a.val < P) (hb : b.val < P) :
    FieldElementR0.add a b = some ⟨(a.val + b.val) % P⟩ ∧
      (a.val + b.val) % P < P := by
  refine ⟨add_eval a b ha hb, Nat.mod_lt _ (by norm_num [P])⟩

/-- Witness for C1 at the concrete canonical inputs 2 and 3. -/
theorem c1_field_add_correct_witness :
    FieldElementR0.add ⟨2⟩ ⟨3⟩ = some ⟨(2 + 3) % P⟩ ∧ (2 + 3) % P < P :=
  c1_field_add_correct ⟨2⟩ ⟨3⟩ (by norm_num [P]) (by norm_num [P])

/-- C6: serialization of a field element fails with the fatal assertion
exactly when the value is not canonical (at least p), and on a canonical
value it returns the little-endian encoding; there is no other outcome. -/
theorem c6_as_bytes_assert (x : FieldElementR0) :
    (P ≤ x.val → FieldElementR0.as_bytes x = none) ∧
    (x.val < P → FieldElementR0.as_bytes x = some (toLeBytes32 x.val)) := by
  constructor
  · intro h
    unfold FieldElementR0.as_bytes
    rw [if_neg (by omega)]
  · intro h
    unfold FieldElementR0.as_bytes
    rw [if_pos h]

/-- Witness for C6: the assertion fires at the non-canonical value p and
does not fire at the canonical value 1. -/
theorem c6_as_bytes_assert_witness :
    FieldElementR0.as_bytes ⟨P⟩ = none ∧
    FieldElementR0.as_bytes ⟨1⟩ = some (toLeBytes32 1) :=
  ⟨(c6_as_bytes_assert ⟨P⟩).1 (le_refl P),
    (c6_as_bytes_assert ⟨1⟩).2 (by norm_num [P])⟩

/-- C7: for canonical x, adding x to its negation (a modular multiply by
the constant MINUS_ONE, which equals p - 1) gives exactly the fully
reduced zero element. -/
theorem c7_add_negate_zero (x : FieldElementR0) (hx : x.val < P) :
    FieldElementR0.add x (FieldElementR0.negate x) = some FieldElementR0.ZERO ∧
    FieldElementR0.MINUS_ONE.val = P - 1 := by
  have hm1 : FieldElementR0.MINUS_ONE.val = P - 1 := by
    norm_num [FieldElementR0.MINUS_ONE, P]
  refine ⟨?_, hm1⟩
  have hPpos : 0 < P := by norm_num [P]
  have hneg : (FieldElementR0.negate x).val = x.val * (P - 1) % P := by
    simp [FieldElementR0.negate, modmul_u256_denormalized, hm1]
  have hlt : (FieldElementR0.negate x).val < P := by
    rw [hneg]
    exact Nat.mod_lt _ hPpos
  rw [add_eval x _ hx hlt, hneg]
  have key : (x.val + x.val * (P - 1) % P) % P = 0 := by
    obtain ⟨p1, hp1⟩ : ∃ p1, P = p1 + 1 := ⟨P - 1, by norm_num [P]⟩
    rw [hp1, Nat.add_sub_cancel, Nat.add_mod_mod,
      show x.val + x.val * p1 = x.val * (p1 + 1) from by ring,
      Nat.mul_mod_left]
  rw [key]
  rfl

/-- Witness for C7 at the concrete canonical input 5. -/
theorem c7_add_negate_zero_witness :
    FieldElementR0.add ⟨5⟩ (FieldElementR0.negate ⟨5⟩) = some FieldElementR0.ZERO ∧
    FieldElementR0.MINUS_ONE.val = P - 1 :=
  c7_add_negate_zero ⟨5⟩ (by norm_num [P])

theorem montgomery_mul_val (x y : ScalarR0) :
    (ScalarR0.montgomery_mul x y).val = x.val * y.val * R_INVERSE % L.val := by
  simp [ScalarR0.montgomery_mul, modmul_u256, modmul_u256_denormalized]

theorem as_montgomery_val (x : ScalarR0) :
    x.as_montgomery.val = x.val * R.val % L.val := by
  simp [ScalarR0.as_montgomery, modmul_u256]

theorem from_montgomery_val (x : ScalarR0) :
    x.from_montgomery.val = x.val * R_INVERSE % L.val := by
  simp [ScalarR0.from_montgomery, modmul_u256]

theorem r_times_r_inverse : R.val * R_INVERSE % L.val = 1 := by
  norm_num [R, R_INVERSE, L]

theorem r_inverse_modEq : Nat.ModEq L.val (R.val * R_INVERSE) 1 := by
  show R.val * R_INVERSE % L.val = 1 % L.val
  rw [r_times_r_inverse]
  norm_num [L]

/-- C2: Montgomery multiplication computes the product divided by the
Montgomery modulus: its value is a·b·R⁻¹ mod L, the round trip through
Montgomery form multiplies back to the plain product mod L, and the
precomputed constants R and R_INVERSE are inverse to each other mod L. -/
theorem c2_montgomery_mul_correct (a b : ScalarR0) :
    ScalarR0.from_montgomery
        (ScalarR0.montgomery_mul a.as_montgomery b.as_montgomery) =
      ScalarR0.mul a b ∧
    (ScalarR0.montgomery_mul a b).val = a.val * b.val * R_INVERSE % L.val ∧
    R.val * R_INVERSE % L.val = 1 := by
  refine ⟨?_, montgomery_mul_val a b, r_times_r_inverse⟩
  apply scalar_eq_of_val
  rw [from_montgomery_val, montgomery_mul_val, as_montgomery_val,
    as_montgomery_val]
  show _ = (ScalarR0.mul a b).val
  simp only [ScalarR0.mul, modmul_u256]
  have h1 : (a.val * R.val % L.val) * (b.val * R.val % L.val) * R_INVERSE ≡
      a.val * R.val * (b.val * R.val) * R_INVERSE [MOD L.val] :=
    ((Nat.mod_modEq (a.val * R.val) L.val).mul
      (Nat.mod_modEq (b.val * R.val) L.val)).mul_right R_INVERSE
  calc ((a.val * R.val % L.val) * (b.val * R.val % L.val) * R_INVERSE % L.val)
        * R_INVERSE % L.val
      = ((a.val * R.val % L.val) * (b.val * R.val % L.val) * R_INVERSE
          * R_INVERSE) % L.val := by
        rw [Nat.mod_mul_mod]
    _ = (a.val * b.val * (R.val * R_INVERSE * (R.val * R_INVERSE))) % L.val := by
        have h2 : (a.val * R.val % L.val) * (b.val * R.val % L.val) * R_INVERSE
            * R_INVERSE ≡
            a.val * b.val * (R.val * R_INVERSE * (R.val * R_INVERSE))
              [MOD L.val] := by
          calc (a.val * R.val % L.val) * (b.val * R.val % L.val) * R_INVERSE
                * R_INVERSE
              ≡ a.val * R.val * (b.val * R.val) * R_INVERSE * R_INVERSE
                  [MOD L.val] := h1.mul_right R_INVERSE
            _ = a.val * b.val * (R.val * R_INVERSE * (R.val * R_INVERSE)) := by
                ring
        exact h2
    _ = a.val * b.val % L.val := by
        have h3 : a.val * b.val * (R.val * R_INVERSE * (R.val * R_INVERSE)) ≡
            a.val * b.val * (1 * 1) [MOD L.val] :=
          Nat.ModEq.mul_left _ (r_inverse_modEq.mul r_inverse_modEq)
        have h4 := h3
        rw [mul_one, mul_one] at h4
        exact h4

/-- C3: converting a scalar into Montgomery form and straight back out
again reduces it mod L, i.e. agrees with reduce; moreover the constant R
is 2^261 mod L. -/
theorem c3_montgomery_round_trip (a : ScalarR0) :
    ScalarR0.from_montgomery a.as_montgomery = ScalarR0.reduce a ∧
    R.val = 2 ^ 261 % L.val := by
  refine ⟨?_, by norm_num [R, L]⟩
  apply scalar_eq_of_val
  rw [from_montgomery_val, as_montgomery_val]
  show _ = (ScalarR0.reduce a).val
  simp only [ScalarR0.reduce, modmul_u256, mul_one]
  calc (a.val * R.val % L.val) * R_INVERSE % L.val
      = a.val * R.val * R_INVERSE % L.val := by rw [Nat.mod_mul_mod]
    _ = a.val % L.val := by
        have h1 : a.val * R.val * R_INVERSE ≡ a.val * 1 [MOD L.val] := by
          calc a.val * R.val * R_INVERSE
              = a.val * (R.val * R_INVERSE) := by ring
            _ ≡ a.val * 1 [MOD L.val] := Nat.ModEq.mul_left _ r_inverse_modEq
        have h2 := h1
        rw [mul_one] at h2
        exact h2

/-- C4: decoding 32 bytes as a field element clears the top bit of the
256-bit little-endian value, reduces mod p, and produces a canonical
element; serializing the result succeeds and encodes that reduced value. -/
theorem c4_field_bytes_round_trip (data : ℕ → ℕ) (h : ∀ i < 32, data i < 256) :
    (FieldElementR0.from_bytes data).val = leBytes 32 data % 2 ^ 255 % P ∧
    (FieldElementR0.from_bytes data).val < P ∧
    FieldElementR0.as_bytes (FieldElementR0.from_bytes data) =
      some (toLeBytes32 (leBytes 32 data % 2 ^ 255 % P)) := by
  have hval : leBytes 32 data < 2 ^ 256 := by
    have h1 := leBytes_lt 32 data h
    norm_num at h1
    exact h1
  have hmask : leBytes 32 data % 2 ^ 224 +
      (limb (leBytes 32 data) 7 &&& 0x7FFFFFFF) * 2 ^ 224 =
      leBytes 32 data % 2 ^ 255 := by
    rw [show (0x7FFFFFFF : ℕ) = 2 ^ 31 - 1 from by norm_num,
      Nat.and_pow_two_sub_one_eq_mod]
    simp only [limb]
    norm_num
    omega
  have hv : (FieldElementR0.from_bytes data).val =
      leBytes 32 data % 2 ^ 255 % P := by
    simp only [FieldElementR0.from_bytes, modmul_u256_denormalized,
      FieldElementR0.ONE, mul_one]
    rw [hmask]
  have hcan : (FieldElementR0.from_bytes data).val < P := by
    rw [hv]
    exact Nat.mod_lt _ (by norm_num [P])
  refine ⟨hv, hcan, ?_⟩
  unfold FieldElementR0.as_bytes
  rw [if_pos hcan, hv]

/-- Witness for C4 at the all-0xFF byte array. -/
theorem c4_field_bytes_round_trip_witness :
    (FieldElementR0.from_bytes fun _ => 255).val =
      leBytes 32 (fun _ => 255) % 2 ^ 255 % P ∧
    (FieldElementR0.from_bytes fun _ => 255).val < P ∧
    FieldElementR0.as_bytes (FieldElementR0.from_bytes fun _ => 255) =
      some (toLeBytes32 (leBytes 32 (fun _ => 255) % 2 ^ 255 % P)) :=
  c4_field_bytes_round_trip (fun _ => 255) (by intro i _; norm_num)

/-- C5: wide reduction of 64 bytes returns the 512-bit little-endian value
reduced mod L, canonically; in particular the all-0xFF array maps to
(2^512 - 1) mod L. -/
theorem c5_from_bytes_wide_correct (bytes : ℕ → ℕ) :
    (ScalarR0.from_bytes_wide bytes).val = leBytes 64 bytes % L.val ∧
    (ScalarR0.from_bytes_wide bytes).val < L.val ∧
    ScalarR0.from_bytes_wide (fun _ => 255) = ⟨(2 ^ 512 - 1) % L.val⟩ := by
  have hLpos : 0 < L.val := by norm_num [L]
  have main : ∀ bs : ℕ → ℕ,
      (ScalarR0.from_bytes_wide bs).val = leBytes 64 bs % L.val := by
    intro bs
    have hlo : leBytes 32 bs * 1 % L.val < L.val := Nat.mod_lt _ hLpos
    have hhi : leBytes 32 (fun i => bs (32 + i)) * TWO_POW_TWO_FIFTY_SIX
        % L.val < L.val := Nat.mod_lt _ hLpos
    simp only [ScalarR0.from_bytes_wide, modmul_u256]
    rw [add_mod_eval _ _ _ hhi hlo]
    have hsplit : leBytes 64 bs =
        leBytes 32 bs + 2 ^ 256 * leBytes 32 fun i => bs (32 + i) := by
      have h1 := leBytes_split 32 32 bs
      norm_num at h1
      exact h1
    rw [hsplit]
    have hT : TWO_POW_TWO_FIFTY_SIX = 2 ^ 256 % L.val := by
      norm_num [TWO_POW_TWO_FIFTY_SIX, L]
    set lo := leBytes 32 bs with hlodef
    set hi := leBytes 32 (fun i => bs (32 + i)) with hhidef
    have hcong : hi * TWO_POW_TWO_FIFTY_SIX % L.val + lo * 1 % L.val ≡
        lo + 2 ^ 256 * hi [MOD L.val] := by
      calc hi * TWO_POW_TWO_FIFTY_SIX % L.val + lo * 1 % L.val
          ≡ hi * TWO_POW_TWO_FIFTY_SIX + lo * 1 [MOD L.val] :=
            (Nat.mod_modEq _ _).add (Nat.mod_modEq _ _)
        _ = hi * (2 ^ 256 % L.val) + lo := by rw [hT, mul_one]
        _ ≡ hi * 2 ^ 256 + lo [MOD L.val] :=
            ((Nat.mod_modEq _ _).mul_left hi).add_right lo
        _ = lo + 2 ^ 256 * hi := by ring
    exact hcong
  refine ⟨main bytes, ?_, ?_⟩
  · rw [main bytes]
    exact Nat.mod_lt _ hLpos
  · apply scalar_eq_of_val
    rw [main fun _ => 255]
    show leBytes 64 (fun _ => 255) % L.val = _
    rw [leBytes_const255 64]

theorem square_iter_val (x : FieldElementR0) (m : ℕ) :
    (FieldElementR0.square^[m] x.square).val = x.val ^ 2 ^ (m + 1) % P := by
  induction m with
  | zero =>
    simp [FieldElementR0.square, modmul_u256_denormalized, pow_two]
  | succ k ih =>
    rw [Function.iterate_succ_apply']
    show (FieldElementR0.square^[k] x.square).val *
        (FieldElementR0.square^[k] x.square).val % P = _
    rw [ih, Nat.mod_mul_mod, Nat.mul_mod_mod, ← pow_add,
      show 2 ^ (k + 1) + 2 ^ (k + 1) = 2 ^ (k + 1 + 1) from by ring]

/-- C8: repeated squaring pow2k with positive k is exactly k iterated
squarings, and its value is congruent to x^(2^k) mod p (in fact it is the
canonical residue). -/
theorem c8_pow2k_correct (x : FieldElementR0) (k : ℕ)
    (_hx : x.val < P) (hk : 0 < k) :
    FieldElementR0.pow2k x k = FieldElementR0.square^[k] x ∧
    Nat.ModEq P (FieldElementR0.pow2k x k).val (x.val ^ 2 ^ k) := by
  obtain ⟨m, rfl⟩ : ∃ m, k = m + 1 := ⟨k - 1, by omega⟩
  constructor
  · show FieldElementR0.square^[m + 1 - 1] x.square = _
    rw [Nat.add_sub_cancel, ← Function.iterate_succ_apply]
  · show Nat.ModEq P (FieldElementR0.square^[m + 1 - 1] x.square).val _
    rw [Nat.add_sub_cancel, square_iter_val]
    exact Nat.mod_modEq _ _

/-- Witness for C8 at x = 3, k = 2. -/
theorem c8_pow2k_correct_witness :
    FieldElementR0.pow2k ⟨3⟩ 2 = FieldElementR0.square^[2] ⟨3⟩ ∧
    Nat.ModEq P (FieldElementR0.pow2k ⟨3⟩ 2).val (3 ^ 2 ^ 2) :=
  c8_pow2k_correct ⟨3⟩ 2 (by norm_num [P]) (by norm_num)

/-- C9: the base point constant and all eight entries of the eight-torsion
table satisfy the extended-coordinates invariant X·Y = Z·T under the field
multiplication of the backend. -/
theorem c9_constants_extended_invariant :
    extendedInvariant ED25519_BASEPOINT_POINT ∧
    ∀ Q ∈ EIGHT_TORSION, extendedInvariant Q := by
  constructor
  · decide
  · decide

/-- C10: scalar deserialization of 32 bytes stores the raw little-endian
value with no reduction (the all-0xFF array yields 2^256 - 1, which is not
canonical since it is at least L), and canonicity is established later by
reduce, or by as_bytes which reduces before encoding. -/
theorem c10_scalar_from_bytes_unreduced :
    (∀ bytes : ℕ → ℕ, (ScalarR0.from_bytes bytes).val = leBytes 32 bytes) ∧
    (ScalarR0.from_bytes fun _ => 255).val = 2 ^ 256 - 1 ∧
    L.val ≤ (ScalarR0.from_bytes fun _ => 255).val ∧
    (∀ a : ScalarR0, (ScalarR0.reduce a).val = a.val % L.val ∧
      ScalarR0.as_bytes a = toLeBytes32 (a.val % L.val)) := by
  have hmax : (ScalarR0.from_bytes fun _ => 255).val = 2 ^ 256 - 1 := by
    show leBytes 32 (fun _ => 255) = _
    rw [leBytes_const255 32]
  refine ⟨fun bytes => rfl, hmax, ?_, fun a => ⟨?_, ?_⟩⟩
  · rw [hmax]
    norm_num [L]
  · simp [ScalarR0.reduce, modmul_u256]
  · simp [ScalarR0.as_bytes, modmul_u256]

end Risc0
